import Mathlib

/-!
Verification of the Go_passphrase repository (a BIP-39 mnemonic generator).

The Go sources (`main.go` and its later revision carrying the `-i` inspect
mode) are shallowly embedded below: every Go function of the core is
translated to a Lean definition over `List Bool` (bit sequences), `List Nat`
(byte buffers, each byte a `Nat` below 256) and `List Char` (Go strings).
Imperative loops become folds or structural recursions; the out-of-bounds
slice and index panics that Go can raise become `Option`/`Except` values.
-/

/-! ## Bit codec (`bytesToBits`, `bitsToBytes`, `bitsToInt` from main.go) -/

/-- One byte expanded to 8 bits, most-significant bit first: the inner loop
`for i := 7; i >= 0; i-- { bits = append(bits, ((by>>i)&1) == 1) }`. -/
def byteBits (b : Nat) : List Bool :=
  (List.range 8).map (fun k => ((b >>> (7 - k)) &&& 1) == 1)

/-- `bytesToBits` from main.go: each byte of the buffer expanded with
`byteBits`, in order. -/
def bytesToBits (bs : List Nat) : List Bool :=
  bs.flatMap byteBits

/-- `bitsToBytes` from main.go.  The Go loop zero-initializes
`out := make([]byte, (len(bits)+7)/8)` and executes
`out[i/8] |= 1 << (7 - uint(i%8))` for every set bit `i`; byte `j` of the
output therefore collects bits `8*j .. 8*j+7` (missing trailing bits read as
the array's zero initialization, i.e. `getD _ false`). -/
def bitsToBytes (bits : List Bool) : List Nat :=
  (List.range ((bits.length + 7) / 8)).map (fun j =>
    (List.range 8).foldl
      (fun a k => if bits.getD (8 * j + k) false then a ||| (1 <<< (7 - k)) else a) 0)

/-- Loop body of `bitsToInt` from main.go: `n <<= 1; if b { n |= 1 }`. -/
def bitStep (n : Nat) (b : Bool) : Nat :=
  if b then (n <<< 1) ||| 1 else n <<< 1

/-- `bitsToInt` from main.go: interprets a bit group as a big-endian
unsigned integer. -/
def bitsToInt (bits : List Bool) : Nat :=
  bits.foldl bitStep 0

/-! ### Bit codec lemmas -/

theorem even_lor_one (n : Nat) : 2 * n ||| 1 = 2 * n + 1 := by
  apply Nat.eq_of_testBit_eq
  intro i
  rw [Nat.testBit_lor]
  cases i with
  | zero =>
    rw [Nat.testBit_zero, Nat.testBit_zero, Nat.testBit_zero]
    have ha : 2 * n % 2 = 0 := by omega
    have hb : (2 * n + 1) % 2 = 1 := by omega
    simp [ha, hb]
  | succ j =>
    rw [Nat.testBit_succ, Nat.testBit_succ, Nat.testBit_succ]
    have h1 : 2 * n / 2 = n := by omega
    have h2 : (2 * n + 1) / 2 = n := by omega
    have h3 : (1 : Nat) / 2 = 0 := by norm_num
    rw [h1, h2, h3]
    simp

theorem bitStep_eq (n : Nat) (b : Bool) :
    bitStep n b = 2 * n + (if b then 1 else 0) := by
  cases b with
  | false => simp [bitStep, Nat.shiftLeft_eq, Nat.mul_comm]
  | true =>
    simp only [bitStep, if_true, Nat.shiftLeft_eq, Nat.pow_one]
    rw [Nat.mul_comm, even_lor_one]

theorem foldl_bitStep_lt (l : List Bool) :
    ∀ a : Nat, l.foldl bitStep a < (a + 1) * 2 ^ l.length := by
  induction l with
  | nil => intro a; simp
  | cons b t ih =>
    intro a
    have h := ih (bitStep a b)
    have hb : bitStep a b + 1 ≤ 2 * (a + 1) := by
      rw [bitStep_eq]; cases b <;> simp <;> omega
    calc (b :: t).foldl bitStep a = t.foldl bitStep (bitStep a b) := by simp
      _ < (bitStep a b + 1) * 2 ^ t.length := h
      _ ≤ 2 * (a + 1) * 2 ^ t.length := Nat.mul_le_mul_right _ hb
      _ = (a + 1) * 2 ^ (t.length + 1) := by ring

theorem bitsToInt_lt (bits : List Bool) : bitsToInt bits < 2 ^ bits.length := by
  have h := foldl_bitStep_lt bits 0
  simpa [bitsToInt] using h

theorem byteBits_length (b : Nat) : (byteBits b).length = 8 := by
  simp [byteBits]

theorem bytesToBits_length (bs : List Nat) :
    (bytesToBits bs).length = 8 * bs.length := by
  induction bs with
  | nil => simp [bytesToBits]
  | cons b t ih =>
    simp only [bytesToBits, List.flatMap_cons] at *
    simp [byteBits_length, ih]
    omega

theorem bytesToBits_cons (b : Nat) (t : List Nat) :
    bytesToBits (b :: t) = byteBits b ++ bytesToBits t := by
  simp [bytesToBits]

set_option maxRecDepth 8192

/-- Packing the 8 bits of one byte back with the `bitsToBytes` loop body
recovers the byte, for every genuine byte value. -/
theorem byte_pack_unpack : ∀ b : Nat, b < 256 →
    (List.range 8).foldl
      (fun a k => if (byteBits b).getD k false then a ||| (1 <<< (7 - k)) else a) 0 = b := by
  decide

/-- Recomposing the head byte: the first 8 bits of `byteBits b ++ rest`
pack back to `b`. -/
theorem pack_head (b : Nat) (hb : b < 256) (rest : List Bool) :
    (List.range 8).foldl
      (fun a k => if (byteBits b ++ rest).getD (8 * 0 + k) false then a ||| (1 <<< (7 - k)) else a)
      0 = b := by
  have hstep : ∀ (a : Nat), ∀ k ∈ List.range 8,
      (if (byteBits b ++ rest).getD (8 * 0 + k) false then a ||| (1 <<< (7 - k)) else a)
        = (if (byteBits b).getD k false then a ||| (1 <<< (7 - k)) else a) := by
    intro a k hk
    have hk8 : k < 8 := List.mem_range.mp hk
    have hk8' : k < (byteBits b).length := by rw [byteBits_length]; exact hk8
    rw [Nat.mul_zero, Nat.zero_add, List.getD_append _ _ _ _ hk8']
  rw [List.foldl_ext _ _ 0 hstep]
  exact byte_pack_unpack b hb

theorem bitsToBytes_bytesToBits (B : List Nat) (h : ∀ b ∈ B, b < 256) :
    bitsToBytes (bytesToBits B) = B := by
  induction B with
  | nil => simp [bytesToBits, bitsToBytes]
  | cons b t ih =>
    have hb : b < 256 := h b (List.mem_cons_self b t)
    have ht : ∀ x ∈ t, x < 256 := fun x hx => h x (List.mem_cons_of_mem b hx)
    rw [bytesToBits_cons]
    have hlb : (byteBits b).length = 8 := byteBits_length b
    have hlt : (bytesToBits t).length = 8 * t.length := bytesToBits_length t
    have hcount : ((byteBits b ++ bytesToBits t).length + 7) / 8 = t.length + 1 := by
      rw [List.length_append, hlb, hlt]; omega
    have hcount' : ((bytesToBits t).length + 7) / 8 = t.length := by rw [hlt]; omega
    unfold bitsToBytes
    rw [hcount,
      show List.range (t.length + 1) = 0 :: (List.range t.length).map Nat.succ from
        List.range_succ_eq_map t.length,
      List.map_cons, List.map_map]
    rw [pack_head b hb (bytesToBits t)]
    congr 1
    have htail : ∀ j ∈ List.range t.length,
        ((fun j => (List.range 8).foldl
            (fun a k => if (byteBits b ++ bytesToBits t).getD (8 * j + k) false
              then a ||| (1 <<< (7 - k)) else a) 0) ∘ Nat.succ) j
        = (fun j => (List.range 8).foldl
            (fun a k => if (bytesToBits t).getD (8 * j + k) false
              then a ||| (1 <<< (7 - k)) else a) 0) j := by
      intro j _
      simp only [Function.comp]
      apply List.foldl_ext
      intro a k _
      have hge : (byteBits b).length ≤ 8 * Nat.succ j + k := by rw [hlb]; omega
      rw [List.getD_append_right _ _ _ _ hge]
      have : 8 * Nat.succ j + k - (byteBits b).length = 8 * j + k := by rw [hlb]; omega
      rw [this]
    rw [List.map_congr_left htail]
    have := ih ht
    unfold bitsToBytes at this
    rw [hcount'] at this
    exact this

/-! ## SHA-256 (the `crypto/sha256` hash used by `checksumBits`)

`main.go` calls `sha256.Sum256(entropy)` from the Go standard library.  The
function below is the FIPS 180-4 SHA-256 algorithm that `crypto/sha256`
implements, on byte buffers represented as `List Nat`; all 32-bit machine
words are `Nat` reduced modulo `2^32`. -/

/-- Reduce to a 32-bit word. -/
def w32 (x : Nat) : Nat := x % 4294967296

/-- Rotate a 32-bit word right by `n`. -/
def rotr32 (n x : Nat) : Nat := w32 ((x >>> n) ||| (x <<< (32 - n)))

def bSig0 (x : Nat) : Nat := (rotr32 2 x) ^^^ (rotr32 13 x) ^^^ (rotr32 22 x)

def bSig1 (x : Nat) : Nat := (rotr32 6 x) ^^^ (rotr32 11 x) ^^^ (rotr32 25 x)

def sSig0 (x : Nat) : Nat := (rotr32 7 x) ^^^ (rotr32 18 x) ^^^ (x >>> 3)

def sSig1 (x : Nat) : Nat := (rotr32 17 x) ^^^ (rotr32 19 x) ^^^ (x >>> 10)

def chFn (x y z : Nat) : Nat := (x &&& y) ^^^ ((x ^^^ 4294967295) &&& z)

def majFn (x y z : Nat) : Nat := (x &&& y) ^^^ (x &&& z) ^^^ (y &&& z)

/-- The 64 SHA-256 round constants (FIPS 180-4 section 4.2.2, written in
decimal). -/
def K256 : List Nat :=
  [1116352408, 1899447441, 3049323471, 3921009573,
   961987163, 1508970993, 2453635748, 2870763221,
   3624381080, 310598401, 607225278, 1426881987,
   1925078388, 2162078206, 2614888103, 3248222580,
   3835390401, 4022224774, 264347078, 604807628,
   770255983, 1249150122, 1555081692, 1996064986,
   2554220882, 2821834349, 2952996808, 3210313671,
   3336571891, 3584528711, 113926993, 338241895,
   666307205, 773529912, 1294757372, 1396182291,
   1695183700, 1986661051, 2177026350, 2456956037,
   2730485921, 2820302411, 3259730800, 3345764771,
   3516065817, 3600352804, 4094571909, 275423344,
   430227734, 506948616, 659060556, 883997877,
   958139571, 1322822218, 1537002063, 1747873779,
   1955562222, 2024104815, 2227730452, 2361852424,
   2428436474, 2756734187, 3204031479, 3329325298]

/-- Hash state: the eight 32-bit working variables `a`–`h`. -/
structure Hash8 where
  a : Nat
  b : Nat
  c : Nat
  d : Nat
  e : Nat
  f : Nat
  g : Nat
  h : Nat

/-- SHA-256 initial hash value. -/
def sha256Init : Hash8 :=
  ⟨1779033703, 3144134277, 1013904242, 2773480762,
   1359893119, 2600822924, 528734635, 1541459225⟩

/-- One SHA-256 compression round; `wk` is the pair `(W[t], K[t])`. -/
def sha256Round (s : Hash8) (wk : Nat × Nat) : Hash8 :=
  let t1 := w32 (s.h + bSig1 s.e + chFn s.e s.f s.g + wk.2 + wk.1)
  let t2 := w32 (bSig0 s.a + majFn s.a s.b s.c)
  ⟨w32 (t1 + t2), s.a, s.b, s.c, w32 (s.d + t1), s.e, s.f, s.g⟩

/-- Extend the message schedule by one word. -/
def scheduleStep (w : List Nat) : List Nat :=
  let n := w.length
  w ++ [w32 (sSig1 (w.getD (n - 2) 0) + w.getD (n - 7) 0 +
             sSig0 (w.getD (n - 15) 0) + w.getD (n - 16) 0)]

/-- The 64-word message schedule from the 16 words of one block. -/
def messageSchedule (block : List Nat) : List Nat :=
  (List.range 48).foldl (fun w _ => scheduleStep w) block

/-- Big-endian 32-bit words of one 64-byte block. -/
def blockWords (blk : List Nat) : List Nat :=
  (List.range 16).map (fun i =>
    (blk.getD (4 * i) 0 <<< 24) ||| (blk.getD (4 * i + 1) 0 <<< 16) |||
    (blk.getD (4 * i + 2) 0 <<< 8) ||| blk.getD (4 * i + 3) 0)

/-- Compress one block into the running hash state. -/
def sha256Compress (s : Hash8) (blk : List Nat) : Hash8 :=
  let w := messageSchedule (blockWords blk)
  let r := (w.zip K256).foldl sha256Round s
  ⟨w32 (s.a + r.a), w32 (s.b + r.b), w32 (s.c + r.c), w32 (s.d + r.d),
   w32 (s.e + r.e), w32 (s.f + r.f), w32 (s.g + r.g), w32 (s.h + r.h)⟩

/-- SHA-256 padding: append `0x80`, zero bytes up to 56 mod 64, then the
bit length as a big-endian 64-bit integer. -/
def sha256Pad (msg : List Nat) : List Nat :=
  msg ++ 128 :: List.replicate ((119 - msg.length % 64) % 64) 0 ++
    (List.range 8).map (fun i => ((8 * msg.length) >>> (8 * (7 - i))) % 256)

/-- Big-endian bytes of a 32-bit word. -/
def wordBytes (x : Nat) : List Nat :=
  [(x >>> 24) % 256, (x >>> 16) % 256, (x >>> 8) % 256, x % 256]

/-- SHA-256 of a byte buffer (the value `sha256.Sum256` returns in Go). -/
def sha256 (msg : List Nat) : List Nat :=
  let padded := sha256Pad msg
  let blocks := (List.range (padded.length / 64)).map
    (fun i => (padded.drop (64 * i)).take 64)
  let s := blocks.foldl sha256Compress sha256Init
  wordBytes s.a ++ wordBytes s.b ++ wordBytes s.c ++ wordBytes s.d ++
  wordBytes s.e ++ wordBytes s.f ++ wordBytes s.g ++ wordBytes s.h

/-- Sanity anchor: the FIPS 180-4 test vector for the empty message. -/
theorem sha256_empty_vector :
    sha256 [] = [227, 176, 196, 66, 152, 252, 28, 20,
                 154, 251, 244, 200, 153, 111, 185, 36,
                 39, 174, 65, 228, 100, 155, 147, 76,
                 164, 149, 153, 27, 120, 82, 184, 85] := by
  decide

/-- Sanity anchor: the FIPS 180-4 test vector for the message "abc". -/
theorem sha256_abc_vector :
    sha256 [97, 98, 99] =
      [186, 120, 22, 191, 143, 1, 207, 234,
       65, 65, 64, 222, 93, 174, 34, 35,
       176, 3, 97, 163, 150, 23, 122, 156,
       180, 16, 255, 97, 242, 0, 21, 173] := by
  decide

theorem wordBytes_length (x : Nat) : (wordBytes x).length = 4 := by
  simp [wordBytes]

/-- SHA-256 always produces a 32-byte digest. -/
theorem sha256_length (msg : List Nat) : (sha256 msg).length = 32 := by
  simp [sha256, wordBytes_length]

/-! ## Mnemonic engine (`checksumBits`, `generateMnemonic`,
`readBinaryFile`, `generatePassphraseFromBinary` from main.go) -/

/-- `checksumBits` from main.go:
`return bytesToBits(hash[:])[:csLen]` where `csLen := len(entropyBits)/32`.
The Go slice expression panics when `csLen` exceeds the 256 available hash
bits (the slice's length and capacity are both exactly 256); that panic is
modelled as `none`. -/
def checksumBits (entropyBits : List Bool) : Option (List Bool) :=
  let entropy := bitsToBytes entropyBits
  let hashBits := bytesToBits (sha256 entropy)
  let csLen := entropyBits.length / 32
  if csLen ≤ hashBits.length then some (hashBits.take csLen) else none

/-- The word-list indices computed by `generateMnemonic`:
`bitsToInt(bits[i*11 : (i+1)*11])` for `i < len(bits)/11`. -/
def mnemonicIndices (bits : List Bool) : List Nat :=
  (List.range (bits.length / 11)).map (fun i => bitsToInt ((bits.drop (11 * i)).take 11))

/-- Look up each index in the word list, in order.  Go's `wordList[index]`
panics when an index is out of bounds; that is modelled by `none`. -/
def lookupWords : List Nat → List (List Char) → Option (List (List Char))
  | [], _ => some []
  | i :: is, wordList =>
    match wordList.get? i, lookupWords is wordList with
    | some w, some ws => some (w :: ws)
    | _, _ => none

/-- The words looked up by `generateMnemonic`. -/
def mnemonicWords (bits : List Bool) (wordList : List (List Char)) :
    Option (List (List Char)) :=
  lookupWords (mnemonicIndices bits) wordList

/-- `generateMnemonic` from main.go: words joined by single spaces
(`strings.Join(words, " ")`). -/
def generateMnemonic (bits : List Bool) (wordList : List (List Char)) :
    Option (List Char) :=
  (mnemonicWords bits wordList).map (List.intercalate [' '])

/-- One parsed character of the persisted file: `'0'` and `'1'` become
bits, everything else is ignored. -/
def bitOfChar (c : Char) : Option Bool :=
  if c = '0' then some false else if c = '1' then some true else none

/-- `bufio.ScanLines` strips one trailing carriage return from each line. -/
def dropCR (line : List Char) : List Char :=
  if line.getLast? = some '\r' then line.dropLast else line

/-- Split file content at newline characters (the token stream produced by
`bufio.Scanner` with the default `ScanLines` split; a file ending in a
newline additionally yields one empty final token here, which contributes
no bits). -/
def splitLinesAux : List Char → List Char → List (List Char)
  | [], acc => [acc.reverse]
  | c :: cs, acc =>
    if c = '\n' then acc.reverse :: splitLinesAux cs []
    else splitLinesAux cs (c :: acc)

/-- `readBinaryFile` from main.go, applied to the file's content: scan the
content line by line and keep one bit per `'0'`/`'1'` character. -/
def readFileBits (content : List Char) : List (Bool) :=
  ((splitLinesAux content []).map (fun line => (dropCR line).filterMap bitOfChar)).flatten

/-- The fatal-error message printed by `generatePassphraseFromBinary` when
`binary.txt` does not exist. -/
def notFoundMessage : List Char :=
  "Error: binary.txt not found. Please generate it first with -b".toList

/-- The ways `generatePassphraseFromBinary` aborts instead of returning a
passphrase: the `log.Fatalf` for a missing `binary.txt` (carrying its
message), the slice-bounds panic inside `checksumBits`, and the index
panic inside `generateMnemonic`. -/
inductive DeriveErr where
  | notFound (msg : List Char)
  | slicePanic
  | indexPanic
deriving DecidableEq

/-- `generatePassphraseFromBinary` from main.go as a function of the
persisted file (`none` when `binary.txt` does not exist, `some content`
otherwise) and the word list. -/
def generatePassphraseFromBinary (file : Option (List Char))
    (wordList : List (List Char)) : Except DeriveErr (List Char) :=
  match file with
  | none => Except.error (DeriveErr.notFound notFoundMessage)
  | some content =>
    let bits := readFileBits content
    match checksumBits bits with
    | none => Except.error DeriveErr.slicePanic
    | some csBits =>
      match generateMnemonic (bits ++ csBits) wordList with
      | none => Except.error DeriveErr.indexPanic
      | some phrase => Except.ok phrase

/-! ## Persisting entropy (`writeBinaryFile` from main.go) -/

/-- One iteration of the `writeBinaryFile` loop: the state is the output
written so far and `groupCount`; the input is the pair `(i, b)` of the
bit's index and value.  The loop writes the bit character, a space after
every 11th bit (incrementing `groupCount`), and a newline once
`groupCount` reaches 6 (resetting it). -/
def writeStep (st : List Char × Nat) (p : Nat × Bool) : List Char × Nat :=
  let out1 := st.1 ++ [if p.2 then '1' else '0']
  let st2 := if (p.1 + 1) % 11 = 0 then (out1 ++ [' '], st.2 + 1) else (out1, st.2)
  if st2.2 = 6 then (st2.1 ++ ['\n'], 0) else st2

/-- The characters `writeBinaryFile` writes for a bit sequence: the loop
over the indexed bits, followed by a final newline iff `groupCount != 0`. -/
def writeBinaryChars (bits : List Bool) : List Char :=
  let st := bits.enum.foldl writeStep ([], 0)
  if st.2 = 0 then st.1 else st.1 ++ ['\n']

/-- `writeBinaryFile` from main.go, as the file content written for an
entropy byte buffer. -/
def writeBinaryFile (entropy : List Nat) : List Char :=
  writeBinaryChars (bytesToBits entropy)

/-- The character for one bit. -/
def bitChar (b : Bool) : Char := if b then '1' else '0'

/-- The canonical layout of the persisted encoding, stated the way the
specification describes it (with the trailing-newline condition the code
actually implements): every complete 11-bit group is rendered
most-significant-bit first and followed by a space; a newline follows
every 6th complete group; bits after the last complete group follow
without a trailing space; a final newline is written iff the number of
complete groups is not a multiple of 6 (i.e. iff at least one complete
group follows the last newline). -/
def canonicalEncoding (bits : List Bool) : List Char :=
  let g := bits.length / 11
  (List.flatten ((List.range g).map (fun i =>
      ((bits.drop (11 * i)).take 11).map bitChar ++ [' '] ++
        (if (i + 1) % 6 = 0 then ['\n'] else []))))
    ++ (bits.drop (11 * g)).map bitChar
    ++ (if g % 6 = 0 then [] else ['\n'])

/-! ## Inspect mode (`showWordInfo`, `isBinary`, `binaryToInt` from the
revision of main.go that carries the `-i` flag) -/

/-- `isBinary` from the inspect revision: true iff the text is non-empty
and consists solely of `'0'` and `'1'` characters. -/
def isBinary (s : List Char) : Bool :=
  s.all (fun c => c == '0' || c == '1') && s.length != 0

/-- Loop body of `binaryToInt`: `n <<= 1; if c == '1' { n |= 1 }`. -/
def charStep (n : Nat) (c : Char) : Nat :=
  if c = '1' then (n <<< 1) ||| 1 else n <<< 1

/-- `binaryToInt` from the inspect revision. -/
def binaryToInt (bin : List Char) : Nat :=
  bin.foldl charStep 0

/-- The binary representation `fmt` produces for `%b`: most-significant
digit first, a single `'0'` for zero. -/
def natToBinary (n : Nat) : List Char :=
  if n < 2 then [if n = 1 then '1' else '0']
  else natToBinary (n / 2) ++ [if n % 2 = 1 then '1' else '0']
termination_by n
decreasing_by simp_wf; omega

/-- `fmt.Sprintf("%011b", n)`: the binary representation zero-padded on
the left to (at least) 11 characters. -/
def toBinary11 (n : Nat) : List Char :=
  List.replicate (11 - (natToBinary n).length) '0' ++ natToBinary n

/-- `fmt.Sprintf("%011s", s)`: the text zero-padded on the left to (at
least) 11 characters (Go's `0` flag pads strings with zeros). -/
def padTo11 (s : List Char) : List Char :=
  List.replicate (11 - s.length) '0' ++ s

/-- The whitespace class `strings.TrimSpace` strips (restricted to the
ASCII white space characters; the token inputs the claims quantify over
contain none of the non-ASCII Unicode spaces). -/
def isSpaceGo (c : Char) : Bool :=
  c == ' ' || c == '\t' || c == '\n' || c == '\x0b' || c == '\x0c' || c == '\r'

/-- `strings.TrimSpace`. -/
def goTrimSpace (s : List Char) : List Char :=
  ((s.dropWhile isSpaceGo).reverse.dropWhile isSpaceGo).reverse

/-- `strings.ToLower` (character-wise lowercasing). -/
def goToLower (s : List Char) : List Char :=
  s.map Char.toLower

/-- The word-branch scan of `showWordInfo`: `for i, w := range wordList`,
returning the index of the first entry equal to the input. -/
def findWordAux : List (List Char) → List Char → Nat → Option Nat
  | [], _, _ => none
  | w :: ws, inp, i => if w = inp then some i else findWordAux ws inp (i + 1)

/-- What `showWordInfo` prints, as a value: the three info lines of the
binary branch, the three info lines of the word branch, or one of the
three error messages ("binary must be <= 11 bits", "binary out of range
(0-2047)", "neither a valid word nor a valid binary"). -/
inductive InspectResult where
  | binInfo (binStr : List Char) (idx : Nat) (word : List Char)
  | wordInfo (word : List Char) (idx : Nat) (binStr : List Char)
  | binTooLong
  | binOutOfRange
  | unknownToken (tok : List Char)
deriving DecidableEq

/-- `showWordInfo` from the inspect revision.  The input is first
lowercased and trimmed; a binary literal is zero-padded to 11 characters
when shorter, rejected when longer than 11 after padding, otherwise
looked up by index; any other token is scanned for in the word list.
`wordList[idx]` panicking (impossible for a 2048-entry list) is `none`. -/
def showWordInfo (raw : List Char) (wordList : List (List Char)) :
    Option InspectResult :=
  let input := goTrimSpace (goToLower raw)
  if isBinary input then
    let padded := if input.length < 11 then padTo11 input else input
    if padded.length ≠ 11 then some InspectResult.binTooLong
    else
      let idx := binaryToInt padded
      if 2048 ≤ idx then some InspectResult.binOutOfRange
      else (wordList.get? idx).map (fun w => InspectResult.binInfo padded idx w)
  else
    match findWordAux wordList input 0 with
    | some i => some (InspectResult.wordInfo input i (toBinary11 i))
    | none => some (InspectResult.unknownToken input)

/-! ### Reader lemmas -/

theorem filterMap_dropCR (l : List Char) :
    (dropCR l).filterMap bitOfChar = l.filterMap bitOfChar := by
  rcases List.eq_nil_or_concat l with rfl | ⟨ys, y, rfl⟩
  · simp [dropCR]
  · rw [List.concat_eq_append]
    unfold dropCR
    by_cases hy : y = '\r'
    · subst hy
      simp [bitOfChar]
    · have : (ys ++ [y]).getLast? = some y := by simp
      rw [this]
      simp [hy]

theorem splitLinesAux_bits (cs : List Char) :
    ∀ acc : List Char,
      ((splitLinesAux cs acc).map (fun line => (dropCR line).filterMap bitOfChar)).flatten
        = (acc.reverse ++ cs).filterMap bitOfChar := by
  induction cs with
  | nil =>
    intro acc
    simp [splitLinesAux, filterMap_dropCR]
  | cons c cs ih =>
    intro acc
    by_cases hc : c = '\n'
    · subst hc
      have h0 : bitOfChar '\n' = none := by decide
      have hs : splitLinesAux ('\n' :: cs) acc = acc.reverse :: splitLinesAux cs [] := by
        simp [splitLinesAux]
      rw [hs, List.map_cons, List.flatten_cons, ih [], filterMap_dropCR]
      simp [List.filterMap_append, h0]
    · simp only [splitLinesAux, if_neg hc]
      rw [ih (c :: acc)]
      simp

/-- `readBinaryFile` keeps, in file order, exactly one bit per `'0'` or
`'1'` character of the content and ignores every other character. -/
theorem readFileBits_eq_filterMap (content : List Char) :
    readFileBits content = content.filterMap bitOfChar := by
  have h := splitLinesAux_bits content []
  simpa [readFileBits] using h

theorem readFileBits_replicate_zero (n : Nat) :
    readFileBits (List.replicate n '0') = List.replicate n false := by
  rw [readFileBits_eq_filterMap]
  induction n with
  | zero => simp
  | succ m ih => simp [List.replicate_succ, bitOfChar, ih]

/-! ### Checksum lemmas -/

theorem hashBits_length (msg : List Nat) :
    (bytesToBits (sha256 msg)).length = 256 := by
  rw [bytesToBits_length, sha256_length]

theorem checksumBits_eq (bits : List Bool) (h : bits.length / 32 ≤ 256) :
    checksumBits bits
      = some ((bytesToBits (sha256 (bitsToBytes bits))).take (bits.length / 32)) := by
  unfold checksumBits
  simp [hashBits_length, h]

theorem checksumBits_none (bits : List Bool) (h : 256 < bits.length / 32) :
    checksumBits bits = none := by
  unfold checksumBits
  simp [hashBits_length]
  omega

theorem checksumBits_length (bits : List Bool) (h : bits.length / 32 ≤ 256) :
    ∃ cs, checksumBits bits = some cs ∧ cs.length = bits.length / 32 := by
  refine ⟨_, checksumBits_eq bits h, ?_⟩
  rw [List.length_take, hashBits_length]
  omega

/-! ### Word lookup lemmas -/

theorem mnemonicIndices_length (bits : List Bool) :
    (mnemonicIndices bits).length = bits.length / 11 := by
  simp [mnemonicIndices]

theorem mnemonicIndices_lt (bits : List Bool) :
    ∀ idx ∈ mnemonicIndices bits, idx < 2048 := by
  intro idx hidx
  simp only [mnemonicIndices, List.mem_map, List.mem_range] at hidx
  obtain ⟨i, hi, rfl⟩ := hidx
  have hlen : ((bits.drop (11 * i)).take 11).length = 11 := by
    rw [List.length_take, List.length_drop]
    have : 11 * (i + 1) ≤ bits.length := by
      have := (Nat.le_div_iff_mul_le (by omega : 0 < 11)).mp hi
      omega
    omega
  have := bitsToInt_lt ((bits.drop (11 * i)).take 11)
  rw [hlen] at this
  exact this

theorem lookupWords_total (idxs : List Nat) (wl : List (List Char))
    (h : ∀ i ∈ idxs, i < wl.length) :
    ∃ ws, lookupWords idxs wl = some ws ∧ ws.length = idxs.length := by
  induction idxs with
  | nil => exact ⟨[], rfl, rfl⟩
  | cons i is ih =>
    have hi : i < wl.length := h i (List.mem_cons_self i is)
    obtain ⟨ws, hws, hlen⟩ := ih (fun j hj => h j (List.mem_cons_of_mem i hj))
    obtain ⟨w, hw⟩ : ∃ w, wl.get? i = some w := by
      rw [List.get?_eq_get hi]; exact ⟨_, rfl⟩
    refine ⟨w :: ws, ?_, by simp [hlen]⟩
    unfold lookupWords
    rw [hw, hws]

theorem mnemonicWords_total (bits : List Bool) (wl : List (List Char))
    (hwl : wl.length = 2048) :
    ∃ ws, mnemonicWords bits wl = some ws ∧ ws.length = bits.length / 11 := by
  obtain ⟨ws, hws, hlen⟩ := lookupWords_total (mnemonicIndices bits) wl
    (fun i hi => hwl ▸ mnemonicIndices_lt bits i hi)
  exact ⟨ws, hws, by rw [hlen, mnemonicIndices_length]⟩

/-- Bits beyond the last complete 11-bit group do not influence the
mnemonic: the indices of `bits` equal those of `bits` truncated to its
complete groups. -/
theorem mnemonicIndices_take (bits : List Bool) :
    mnemonicIndices bits = mnemonicIndices (bits.take (11 * (bits.length / 11))) := by
  unfold mnemonicIndices
  have hl : (bits.take (11 * (bits.length / 11))).length = 11 * (bits.length / 11) := by
    rw [List.length_take]
    have := Nat.div_mul_le_self bits.length 11
    omega
  rw [hl, Nat.mul_div_cancel_left _ (by omega : 0 < 11)]
  apply List.map_congr_left
  intro i hi
  have hi' : i < bits.length / 11 := List.mem_range.mp hi
  congr 1
  rw [List.drop_take]
  have h1 : 11 * (bits.length / 11) - 11 * i ≥ 11 := by
    have : i + 1 ≤ bits.length / 11 := hi'
    omega
  rw [List.take_take]
  congr 1
  omega

/-! ### Writer lemmas -/

/-- `canonicalEncoding` generalized over the number `p` of complete groups
already emitted on the current line (`canonicalEncoding = canonicalGen · 0`);
this is the induction-friendly form used to relate the loop to the layout. -/
def canonicalGen (bits : List Bool) (p : Nat) : List Char :=
  (List.flatten ((List.range (bits.length / 11)).map (fun i =>
      ((bits.drop (11 * i)).take 11).map bitChar ++ [' '] ++
        (if (p + i + 1) % 6 = 0 then ['\n'] else []))))
    ++ (bits.drop (11 * (bits.length / 11))).map bitChar
    ++ (if (p + bits.length / 11) % 6 = 0 then [] else ['\n'])

theorem canonicalEncoding_eq_gen (bits : List Bool) :
    canonicalEncoding bits = canonicalGen bits 0 := by
  unfold canonicalEncoding canonicalGen
  simp [Nat.zero_add]

theorem writeStep_out (st : List Char × Nat) (p : Nat × Bool) :
    writeStep st p
      = (st.1 ++ (writeStep ([], st.2) p).1, (writeStep ([], st.2) p).2) := by
  rcases st with ⟨o, g⟩
  rcases p with ⟨i, b⟩
  simp only [writeStep]
  split_ifs <;> simp

theorem foldl_writeStep_out (l : List (Nat × Bool)) :
    ∀ st : List Char × Nat,
      List.foldl writeStep st l
        = (st.1 ++ (List.foldl writeStep ([], st.2) l).1,
           (List.foldl writeStep ([], st.2) l).2) := by
  induction l with
  | nil => intro st; simp
  | cons p t ih =>
    intro st
    rw [List.foldl_cons, List.foldl_cons]
    rw [ih (writeStep st p), ih (writeStep ([], st.2) p)]
    rw [writeStep_out st p]
    simp [List.append_assoc]

theorem writeStep_mid (o : List Char) (g i : Nat) (b : Bool)
    (h : (i + 1) % 11 ≠ 0) (hg : g ≠ 6) :
    writeStep (o, g) (i, b) = (o ++ [bitChar b], g) := by
  simp [writeStep, bitChar, h, hg]

theorem writeStep_end (o : List Char) (g i : Nat) (b : Bool)
    (h : (i + 1) % 11 = 0) :
    writeStep (o, g) (i, b)
      = if g + 1 = 6 then (o ++ [bitChar b, ' ', '\n'], 0)
        else (o ++ [bitChar b, ' '], g + 1) := by
  by_cases hg : g + 1 = 6 <;> simp [writeStep, bitChar, h, hg]

/-- Running the loop over bits none of which completes an 11-bit group
just appends their characters. -/
theorem small_run (bits : List Bool) :
    ∀ (s g : Nat) (o : List Char),
      (∀ j, j < bits.length → (s + j + 1) % 11 ≠ 0) → g ≠ 6 →
      List.foldl writeStep (o, g) (List.enumFrom s bits) = (o ++ bits.map bitChar, g) := by
  induction bits with
  | nil => intro s g o _ _; simp
  | cons b t ih =>
    intro s g o hcond hg
    rw [List.enumFrom_cons, List.foldl_cons]
    rw [writeStep_mid o g s b
      (by have := hcond 0 (by simp); omega) hg]
    rw [ih (s + 1) g (o ++ [bitChar b])
      (fun j hj => by
        have := hcond (j + 1) (by simpa using Nat.succ_lt_succ hj)
        omega) hg]
    simp

/-- Running the loop over one complete aligned 11-bit group emits the group
characters, the group's space, and (when it is the 6th group of its line) a
newline. -/
theorem chunk_run (b11 : List Bool) (s g : Nat) (o : List Char)
    (hb : b11.length = 11) (hs : s % 11 = 0) (hg : g < 6) :
    List.foldl writeStep (o, g) (List.enumFrom s b11)
      = (o ++ b11.map bitChar ++ [' '] ++ (if g + 1 = 6 then ['\n'] else []),
         if g + 1 = 6 then 0 else g + 1) := by
  have h10 : (b11.take 10).length = 10 := by rw [List.length_take]; omega
  have hd1 : (b11.drop 10).length = 1 := by rw [List.length_drop]; omega
  obtain ⟨x, hx⟩ := List.length_eq_one.mp hd1
  have hsplit : b11 = b11.take 10 ++ [x] := by
    conv_lhs => rw [← List.take_append_drop 10 b11]
    rw [hx]
  rw [hsplit, List.enumFrom_append, List.foldl_append]
  rw [small_run (b11.take 10) s g o (fun j hj => by rw [h10] at hj; omega) (by omega)]
  rw [h10]
  have henum1 : List.enumFrom (s + 10) [x] = [(s + 10, x)] := by simp
  rw [henum1, List.foldl_cons, List.foldl_nil]
  rw [writeStep_end _ g (s + 10) x (by omega)]
  by_cases h6 : g + 1 = 6 <;> simp [h6, List.append_assoc]

theorem canonicalGen_small (bits : List Bool) (p : Nat)
    (h : bits.length < 11) (hp : p < 6) :
    canonicalGen bits p = bits.map bitChar ++ (if p = 0 then [] else ['\n']) := by
  unfold canonicalGen
  have hg : bits.length / 11 = 0 := by omega
  rw [hg]
  simp only [List.range_zero, List.map_nil, List.flatten_nil, Nat.mul_zero,
    List.drop_zero, List.nil_append, Nat.add_zero]
  congr 1
  rw [if_congr (by omega : p % 6 = 0 ↔ p = 0) rfl rfl]


theorem canonicalGen_step_six (bits : List Bool) (h11 : 11 ≤ bits.length) :
    canonicalGen bits 5
      = (bits.take 11).map bitChar ++ [' '] ++ ['\n'] ++ canonicalGen (bits.drop 11) 0 := by
  have hlr : (bits.drop 11).length = bits.length - 11 := by rw [List.length_drop]
  have hgg : bits.length / 11 = (bits.drop 11).length / 11 + 1 := by rw [hlr]; omega
  have hdd : ∀ k : Nat, (bits.drop 11).drop k = bits.drop (11 + k) := by
    intro k; rw [List.drop_drop]
  unfold canonicalGen
  rw [hgg,
    show List.range ((bits.drop 11).length / 11 + 1)
        = 0 :: (List.range ((bits.drop 11).length / 11)).map Nat.succ from
      List.range_succ_eq_map _,
    List.map_cons, List.flatten_cons, List.map_map]
  rw [List.map_congr_left (g := fun i =>
      (((bits.drop 11).drop (11 * i)).take 11).map bitChar ++ [' '] ++
        (if (0 + i + 1) % 6 = 0 then ['\n'] else []))
    (fun i _ => by
      simp only [Function.comp]
      rw [hdd (11 * i), show 11 * Nat.succ i = 11 + 11 * i from by omega]
      rw [if_congr (by omega : (5 + Nat.succ i + 1) % 6 = 0 ↔ (0 + i + 1) % 6 = 0) rfl rfl])]
  rw [show 11 * ((bits.drop 11).length / 11 + 1)
        = 11 + 11 * ((bits.drop 11).length / 11) from by omega,
    ← hdd (11 * ((bits.drop 11).length / 11))]
  rw [if_congr
    (by omega : (5 + ((bits.drop 11).length / 11 + 1)) % 6 = 0
      ↔ (0 + (bits.drop 11).length / 11) % 6 = 0) rfl rfl]
  rw [if_pos (show (5 + 0 + 1) % 6 = 0 from by norm_num)]
  simp [List.append_assoc]

theorem canonicalGen_step_lt (bits : List Bool) (p : Nat)
    (h11 : 11 ≤ bits.length) (hp : p + 1 < 6) :
    canonicalGen bits p
      = (bits.take 11).map bitChar ++ [' '] ++ canonicalGen (bits.drop 11) (p + 1) := by
  have hlr : (bits.drop 11).length = bits.length - 11 := by rw [List.length_drop]
  have hgg : bits.length / 11 = (bits.drop 11).length / 11 + 1 := by rw [hlr]; omega
  have hdd : ∀ k : Nat, (bits.drop 11).drop k = bits.drop (11 + k) := by
    intro k; rw [List.drop_drop]
  unfold canonicalGen
  rw [hgg,
    show List.range ((bits.drop 11).length / 11 + 1)
        = 0 :: (List.range ((bits.drop 11).length / 11)).map Nat.succ from
      List.range_succ_eq_map _,
    List.map_cons, List.flatten_cons, List.map_map]
  rw [List.map_congr_left (g := fun i =>
      (((bits.drop 11).drop (11 * i)).take 11).map bitChar ++ [' '] ++
        (if (p + 1 + i + 1) % 6 = 0 then ['\n'] else []))
    (fun i _ => by
      simp only [Function.comp]
      rw [hdd (11 * i), show 11 * Nat.succ i = 11 + 11 * i from by omega]
      rw [if_congr (by omega : (p + Nat.succ i + 1) % 6 = 0 ↔ (p + 1 + i + 1) % 6 = 0)
        rfl rfl])]
  rw [show 11 * ((bits.drop 11).length / 11 + 1)
        = 11 + 11 * ((bits.drop 11).length / 11) from by omega,
    ← hdd (11 * ((bits.drop 11).length / 11))]
  rw [if_congr
    (by omega : (p + ((bits.drop 11).length / 11 + 1)) % 6 = 0
      ↔ (p + 1 + (bits.drop 11).length / 11) % 6 = 0) rfl rfl]
  rw [if_neg (show ¬ (p + 0 + 1) % 6 = 0 from by omega)]
  simp [List.append_assoc]

/-- The `writeBinaryFile` loop (from any group-aligned start index and any
in-line group count) produces exactly the canonical layout. -/
theorem loop_eq_canonicalGen : ∀ (n : Nat) (bits : List Bool) (s g : Nat),
    bits.length = n → s % 11 = 0 → g < 6 →
    (List.foldl writeStep ([], g) (List.enumFrom s bits)).1
      ++ (if (List.foldl writeStep ([], g) (List.enumFrom s bits)).2 = 0
          then [] else ['\n'])
      = canonicalGen bits g := by
  intro n
  induction n using Nat.strong_induction_on with
  | _ n ih =>
    intro bits s g hn hs hg
    by_cases hsmall : bits.length < 11
    · rw [small_run bits s g [] (fun j hj => by omega) (by omega)]
      rw [canonicalGen_small bits g hsmall hg]
      by_cases hg0 : g = 0 <;> simp [hg0]
    · push_neg at hsmall
      have henum : List.enumFrom s bits
          = List.enumFrom s (bits.take 11) ++ List.enumFrom (s + 11) (bits.drop 11) := by
        conv_lhs => rw [← List.take_append_drop 11 bits]
        rw [List.enumFrom_append,
          show s + (bits.take 11).length = s + 11 from by rw [List.length_take]; omega]
      rw [henum, List.foldl_append]
      rw [chunk_run (bits.take 11) s g [] (by rw [List.length_take]; omega) hs hg]
      by_cases h6 : g + 1 = 6
      · simp only [if_pos h6]
        rw [foldl_writeStep_out (List.enumFrom (s + 11) (bits.drop 11))]
        have hrec := ih (bits.length - 11) (by omega) (bits.drop 11) (s + 11) 0
          (by rw [List.length_drop]) (by omega) (by omega)
        have hp5 : g = 5 := by omega
        subst hp5
        rw [canonicalGen_step_six bits hsmall]
        simp only [List.append_assoc, List.nil_append]
        rw [← hrec]
      · simp only [if_neg h6]
        rw [foldl_writeStep_out (List.enumFrom (s + 11) (bits.drop 11))]
        have hrec := ih (bits.length - 11) (by omega) (bits.drop 11) (s + 11) (g + 1)
          (by rw [List.length_drop]) (by omega) (by omega)
        rw [canonicalGen_step_lt bits g hsmall (by omega)]
        simp only [List.append_assoc, List.nil_append]
        rw [← hrec]

/-- `writeBinaryChars` produces exactly the canonical layout. -/
theorem writeBinaryChars_eq_canonical (bits : List Bool) :
    writeBinaryChars bits = canonicalEncoding bits := by
  have h := loop_eq_canonicalGen bits.length bits 0 0 rfl (by norm_num) (by norm_num)
  rw [canonicalEncoding_eq_gen]
  rw [← h]
  unfold writeBinaryChars
  rw [show bits.enum = List.enumFrom 0 bits from rfl]
  by_cases hz : (List.foldl writeStep ([], 0) (List.enumFrom 0 bits)).2 = 0 <;> simp [hz]

/-! ### Inspect-mode lemmas -/

theorem charStep_eq (n : Nat) (c : Char) :
    charStep n c = 2 * n + (if c = '1' then 1 else 0) := by
  by_cases hc : c = '1'
  · simp only [charStep, if_pos hc, Nat.shiftLeft_eq, Nat.pow_one]
    rw [Nat.mul_comm, even_lor_one]
  · simp [charStep, hc, Nat.shiftLeft_eq, Nat.mul_comm]

theorem foldl_charStep_lt (l : List Char) :
    ∀ a : Nat, l.foldl charStep a < (a + 1) * 2 ^ l.length := by
  induction l with
  | nil => intro a; simp
  | cons c t ih =>
    intro a
    have h := ih (charStep a c)
    have hb : charStep a c + 1 ≤ 2 * (a + 1) := by
      rw [charStep_eq]; split <;> omega
    calc (c :: t).foldl charStep a = t.foldl charStep (charStep a c) := by simp
      _ < (charStep a c + 1) * 2 ^ t.length := h
      _ ≤ 2 * (a + 1) * 2 ^ t.length := Nat.mul_le_mul_right _ hb
      _ = (a + 1) * 2 ^ (t.length + 1) := by ring

theorem binaryToInt_lt (s : List Char) : binaryToInt s < 2 ^ s.length := by
  have h := foldl_charStep_lt s 0
  simpa [binaryToInt] using h

theorem foldl_charStep_zeros (k : Nat) :
    (List.replicate k '0').foldl charStep 0 = 0 := by
  induction k with
  | zero => rfl
  | succ m ih =>
    rw [List.replicate_succ, List.foldl_cons]
    have : charStep 0 '0' = 0 := by decide
    rw [this, ih]

theorem binaryToInt_pad (k : Nat) (s : List Char) :
    binaryToInt (List.replicate k '0' ++ s) = binaryToInt s := by
  unfold binaryToInt
  rw [List.foldl_append, foldl_charStep_zeros]

theorem binaryToInt_natToBinary : ∀ n : Nat, binaryToInt (natToBinary n) = n := by
  intro n
  induction n using Nat.strong_induction_on with
  | _ n ih =>
    by_cases h2 : n < 2
    · rw [natToBinary, if_pos h2]
      interval_cases n <;> decide
    · rw [natToBinary, if_neg h2]
      unfold binaryToInt
      rw [List.foldl_append]
      have hrec := ih (n / 2) (by omega)
      unfold binaryToInt at hrec
      rw [hrec, List.foldl_cons, List.foldl_nil, charStep_eq]
      by_cases hm : n % 2 = 1
      · rw [if_pos hm, if_pos (by rfl)]
        omega
      · rw [if_neg hm, if_neg (by decide)]
        omega

theorem natToBinary_chars : ∀ n : Nat, ∀ c ∈ natToBinary n, c = '0' ∨ c = '1' := by
  intro n
  induction n using Nat.strong_induction_on with
  | _ n ih =>
    intro c hc
    by_cases h2 : n < 2
    · rw [natToBinary, if_pos h2] at hc
      simp only [List.mem_singleton] at hc
      subst hc
      split <;> simp
    · rw [natToBinary, if_neg h2] at hc
      rw [List.mem_append] at hc
      rcases hc with hc | hc
      · exact ih (n / 2) (by omega) c hc
      · simp only [List.mem_singleton] at hc
        subst hc
        split <;> simp

theorem natToBinary_length_le : ∀ k n : Nat, n < 2 ^ (k + 1) →
    (natToBinary n).length ≤ k + 1 := by
  intro k
  induction k with
  | zero =>
    intro n hn
    have : n < 2 := by simpa using hn
    rw [natToBinary, if_pos this]
    simp
  | succ m ih =>
    intro n hn
    by_cases h2 : n < 2
    · rw [natToBinary, if_pos h2]; simp
    · rw [natToBinary, if_neg h2]
      rw [List.length_append]
      have hdiv : n / 2 < 2 ^ (m + 1) := by
        rw [pow_succ] at hn
        omega
      have := ih (n / 2) hdiv
      simp
      omega

theorem binaryToInt_toBinary11 (n : Nat) : binaryToInt (toBinary11 n) = n := by
  unfold toBinary11
  rw [binaryToInt_pad, binaryToInt_natToBinary]

theorem toBinary11_length (n : Nat) (h : n < 2048) : (toBinary11 n).length = 11 := by
  unfold toBinary11
  rw [List.length_append, List.length_replicate]
  have := natToBinary_length_le 10 n (by norm_num at *; omega)
  omega

theorem toBinary11_chars (n : Nat) : ∀ c ∈ toBinary11 n, c = '0' ∨ c = '1' := by
  intro c hc
  unfold toBinary11 at hc
  rw [List.mem_append] at hc
  rcases hc with hc | hc
  · left; exact List.eq_of_mem_replicate hc
  · exact natToBinary_chars n c hc

theorem natToBinary_ne_nil (n : Nat) : natToBinary n ≠ [] := by
  by_cases h2 : n < 2 <;> rw [natToBinary] <;> simp [h2]

theorem toBinary11_ne_nil (n : Nat) : toBinary11 n ≠ [] := by
  unfold toBinary11
  intro h
  rcases List.append_eq_nil.mp h with ⟨_, h2⟩
  exact natToBinary_ne_nil n h2

/-! ### Normalization lemmas: lowercasing and trimming fix the tokens the
claims quantify over -/

theorem goToLower_of_binary (s : List Char) (h : ∀ c ∈ s, c = '0' ∨ c = '1') :
    goToLower s = s := by
  unfold goToLower
  induction s with
  | nil => rfl
  | cons c t ih =>
    rw [List.map_cons, ih (fun x hx => h x (List.mem_cons_of_mem c hx))]
    rcases h c (List.mem_cons_self c t) with hc | hc <;> subst hc <;> rfl

theorem dropWhile_of_none (p : Char → Bool) (s : List Char)
    (h : ∀ c ∈ s, p c = false) : s.dropWhile p = s := by
  cases s with
  | nil => rfl
  | cons c t =>
    rw [List.dropWhile_cons, h c (List.mem_cons_self c t)]
    simp

theorem goTrimSpace_of_nospace (s : List Char)
    (h : ∀ c ∈ s, isSpaceGo c = false) : goTrimSpace s = s := by
  unfold goTrimSpace
  rw [dropWhile_of_none _ s h,
    dropWhile_of_none _ s.reverse (fun c hc => h c (List.mem_reverse.mp hc)),
    List.reverse_reverse]

theorem norm_of_binary (s : List Char) (h : ∀ c ∈ s, c = '0' ∨ c = '1') :
    goTrimSpace (goToLower s) = s := by
  rw [goToLower_of_binary s h]
  apply goTrimSpace_of_nospace
  intro c hc
  rcases h c hc with hc' | hc' <;> subst hc' <;> rfl

theorem isBinary_iff (s : List Char) :
    isBinary s = true ↔ (∀ c ∈ s, c = '0' ∨ c = '1') ∧ s ≠ [] := by
  unfold isBinary
  rw [Bool.and_eq_true, List.all_eq_true]
  constructor
  · rintro ⟨h1, h2⟩
    refine ⟨fun c hc => ?_, ?_⟩
    · have := h1 c hc
      rcases Bool.or_eq_true_iff.mp this with h | h
      · left; exact eq_of_beq h
      · right; exact eq_of_beq h
    · intro hnil
      subst hnil
      simp at h2
  · rintro ⟨h1, h2⟩
    refine ⟨fun c hc => ?_, ?_⟩
    · rcases h1 c hc with hc' | hc' <;> subst hc' <;> rfl
    · simpa using h2

theorem findWordAux_nodup (wl : List (List Char)) (w : List Char) :
    ∀ (i k : Nat), wl.Nodup → wl.get? i = some w →
      findWordAux wl w k = some (k + i) := by
  induction wl with
  | nil => intro i k _ hg; simp at hg
  | cons x t ih =>
    intro i k hn hg
    cases i with
    | zero =>
      simp only [List.get?] at hg
      injection hg with hg
      subst hg
      simp [findWordAux]
    | succ j =>
      simp only [List.get?] at hg
      have hw : w ∈ t := List.get?_mem hg
      have hx : x ∉ t := (List.nodup_cons.mp hn).1
      have hxw : ¬ (x = w) := fun hxweq => hx (hxweq ▸ hw)
      unfold findWordAux
      rw [if_neg hxw]
      rw [ih j (k + 1) (List.nodup_cons.mp hn).2 hg]
      congr 1
      omega

theorem padTo11_length (s : List Char) (h : s.length ≤ 11) :
    (padTo11 s).length = 11 := by
  unfold padTo11
  rw [List.length_append, List.length_replicate]
  omega

theorem padTo11_of_eleven (s : List Char) (h : s.length = 11) : padTo11 s = s := by
  unfold padTo11
  rw [h]
  simp

/-- Binary branch, short input: a binary literal of length at most 10 is
zero-padded and accepted. -/
theorem showWordInfo_bin_short (raw : List Char) (wl : List (List Char))
    (w : List Char) (hb : isBinary raw = true) (hlen : raw.length ≤ 10)
    (hw : wl.get? (binaryToInt (padTo11 raw)) = some w) :
    showWordInfo raw wl
      = some (InspectResult.binInfo (padTo11 raw) (binaryToInt (padTo11 raw)) w) := by
  obtain ⟨hchars, hne⟩ := (isBinary_iff raw).mp hb
  simp only [showWordInfo, norm_of_binary raw hchars, hb, if_true]
  rw [if_pos (by omega : raw.length < 11)]
  have hplen : (padTo11 raw).length = 11 := padTo11_length raw (by omega)
  rw [if_neg (by omega : ¬ (padTo11 raw).length ≠ 11)]
  have hidx : binaryToInt (padTo11 raw) < 2048 := by
    have := binaryToInt_lt (padTo11 raw)
    rw [hplen] at this
    simpa using this
  rw [if_neg (by omega : ¬ 2048 ≤ binaryToInt (padTo11 raw))]
  rw [hw]
  rfl

/-- Binary branch, 11-character input: accepted unchanged. -/
theorem showWordInfo_bin_eleven (raw : List Char) (wl : List (List Char))
    (w : List Char) (hb : isBinary raw = true) (hlen : raw.length = 11)
    (hw : wl.get? (binaryToInt raw) = some w) :
    showWordInfo raw wl
      = some (InspectResult.binInfo raw (binaryToInt raw) w) := by
  obtain ⟨hchars, hne⟩ := (isBinary_iff raw).mp hb
  simp only [showWordInfo, norm_of_binary raw hchars, hb, if_true]
  rw [if_neg (by omega : ¬ raw.length < 11)]
  rw [if_neg (by omega : ¬ raw.length ≠ 11)]
  have hidx : binaryToInt raw < 2048 := by
    have := binaryToInt_lt raw
    rw [hlen] at this
    simpa using this
  rw [if_neg (by omega : ¬ 2048 ≤ binaryToInt raw)]
  rw [hw]
  rfl

/-- Binary branch, over-long input: rejected with the "must be <= 11 bits"
error. -/
theorem showWordInfo_bin_long (raw : List Char) (wl : List (List Char))
    (hb : isBinary raw = true) (hlen : 11 < raw.length) :
    showWordInfo raw wl = some InspectResult.binTooLong := by
  obtain ⟨hchars, hne⟩ := (isBinary_iff raw).mp hb
  simp only [showWordInfo, norm_of_binary raw hchars, hb, if_true]
  rw [if_neg (by omega : ¬ raw.length < 11)]
  rw [if_pos (by omega : raw.length ≠ 11)]

/-- Word branch: a normalized non-binary token found in a duplicate-free
word list is reported with its first (hence unique) index and that index's
11-bit binary rendering. -/
theorem showWordInfo_word (w : List Char) (wl : List (List Char)) (i : Nat)
    (hnorm : goTrimSpace (goToLower w) = w) (hb : isBinary w = false)
    (hnodup : wl.Nodup) (hw : wl.get? i = some w) :
    showWordInfo w wl = some (InspectResult.wordInfo w i (toBinary11 i)) := by
  simp only [showWordInfo, hnorm, hb, Bool.false_eq_true, if_false]
  rw [findWordAux_nodup wl w i 0 hnodup hw]
  simp

/-! ### A concrete 2048-entry word list for the witnesses -/

/-- A concrete stand-in word list (the embedded `english.txt` resource is
not part of the sources): 2048 distinct lowercase tokens, none of which is
a binary literal. -/
def concreteWordList : List (List Char) :=
  (List.range 2048).map (fun n => 'w' :: toBinary11 n)

theorem concreteWordList_length : concreteWordList.length = 2048 := by
  simp [concreteWordList]

theorem concreteWordList_get (n : Nat) (h : n < 2048) :
    concreteWordList.get? n = some ('w' :: toBinary11 n) := by
  unfold concreteWordList
  rw [List.get?_map, List.get?_range h]
  rfl

theorem concreteWordList_nodup : concreteWordList.Nodup := by
  unfold concreteWordList
  apply List.Nodup.map
  · intro a b hab
    have : binaryToInt (toBinary11 a) = binaryToInt (toBinary11 b) := by
      injection hab with _ h
      rw [h]
    rwa [binaryToInt_toBinary11, binaryToInt_toBinary11] at this
  · exact List.nodup_range 2048

theorem concreteWordList_entry_norm (v : List Char) (hv : v ∈ concreteWordList) :
    goTrimSpace (goToLower v) = v ∧ isBinary v = false := by
  unfold concreteWordList at hv
  rw [List.mem_map] at hv
  obtain ⟨n, _, rfl⟩ := hv
  constructor
  · have htl : goToLower ('w' :: toBinary11 n) = 'w' :: toBinary11 n := by
      unfold goToLower
      rw [List.map_cons]
      rw [show Char.toLower 'w' = 'w' from by decide]
      have := goToLower_of_binary (toBinary11 n) (toBinary11_chars n)
      unfold goToLower at this
      rw [this]
    rw [htl]
    apply goTrimSpace_of_nospace
    intro c hc
    rcases List.mem_cons.mp hc with rfl | hc'
    · rfl
    · rcases toBinary11_chars n c hc' with rfl | rfl <;> rfl
  · unfold isBinary
    simp

/-! ## Claims -/

/-- C1: for every byte buffer `B` (each entry a genuine byte value),
`bitsToBytes (bytesToBits B) = B`: expanding each byte into 8 bits
most-significant-bit first and re-packing most-significant-bit first is
the identity on byte buffers. -/
theorem claim_C1 (B : List Nat) (h : ∀ b ∈ B, b < 256) :
    bitsToBytes (bytesToBits B) = B :=
  bitsToBytes_bytesToBits B h

/-- Witness for C1 at the concrete buffer `[0, 171, 255]`. -/
theorem claim_C1_witness :
    (∀ b ∈ [0, 171, 255], b < 256) ∧
    bitsToBytes (bytesToBits [0, 171, 255]) = [0, 171, 255] :=
  ⟨by decide, claim_C1 [0, 171, 255] (by decide)⟩

/-- C2 counterexample: 8224 is a positive multiple of 32, yet
`checksumBits` produces no checksum there — `csLen = 8224/32 = 257`
exceeds the 256 available hash bits and the Go slice `[:csLen]` panics
(modelled as `none`) — so the claim's "for every entropy bit sequence
whose length is a positive multiple of 32" fails as stated. -/
theorem claim_C2_counterexample :
    0 < (List.replicate 8224 false).length ∧
    32 ∣ (List.replicate 8224 false).length ∧
    checksumBits (List.replicate 8224 false) = none := by
  refine ⟨?_, ?_, ?_⟩
  · rw [List.length_replicate]; norm_num
  · rw [List.length_replicate]; norm_num
  · apply checksumBits_none
    rw [List.length_replicate]
    norm_num

/-- C2 (amended: the entropy bit length must additionally be at most 8192,
the largest multiple of 32 whose checksum length fits the 256 hash bits):
the checksum equals the first `len/32` bits of SHA-256 of the bytes packed
from the entropy bits; in particular for 256-bit entropy the checksum has
exactly 8 bits, the combined sequence 264 bits, and the mnemonic exactly
24 words. -/
theorem claim_C2 (bits : List Bool) (hpos : 0 < bits.length)
    (hdvd : 32 ∣ bits.length) (hle : bits.length ≤ 8192) :
    ∃ cs, checksumBits bits = some cs ∧
      cs = (bytesToBits (sha256 (bitsToBytes bits))).take (bits.length / 32) ∧
      cs.length = bits.length / 32 ∧
      (bits.length = 256 →
        cs.length = 8 ∧ (bits ++ cs).length = 264 ∧
        ∀ wl : List (List Char), wl.length = 2048 →
          ∃ ws, mnemonicWords (bits ++ cs) wl = some ws ∧ ws.length = 24) := by
  have h32 : bits.length / 32 ≤ 256 := by omega
  refine ⟨_, checksumBits_eq bits h32, rfl, ?_, ?_⟩
  · rw [List.length_take, hashBits_length]
    omega
  · intro h256
    have h8 : ((bytesToBits (sha256 (bitsToBytes bits))).take (bits.length / 32)).length
        = 8 := by
      rw [List.length_take, hashBits_length, h256]
      omega
    refine ⟨h8, by rw [List.length_append, h8, h256], ?_⟩
    intro wl hwl
    obtain ⟨ws, hws, hwslen⟩ := mnemonicWords_total
      (bits ++ (bytesToBits (sha256 (bitsToBytes bits))).take (bits.length / 32)) wl hwl
    refine ⟨ws, hws, ?_⟩
    rw [hwslen, List.length_append, h8, h256]

/-- Witness for C2 at 256 zero entropy bits. -/
theorem claim_C2_witness :
    0 < (List.replicate 256 false).length ∧
    32 ∣ (List.replicate 256 false).length ∧
    (List.replicate 256 false).length ≤ 8192 ∧
    (∃ cs, checksumBits (List.replicate 256 false) = some cs ∧
      cs = (bytesToBits (sha256 (bitsToBytes (List.replicate 256 false)))).take
        ((List.replicate 256 false).length / 32) ∧
      cs.length = (List.replicate 256 false).length / 32 ∧
      ((List.replicate 256 false).length = 256 →
        cs.length = 8 ∧ (List.replicate 256 false ++ cs).length = 264 ∧
        ∀ wl : List (List Char), wl.length = 2048 →
          ∃ ws, mnemonicWords (List.replicate 256 false ++ cs) wl = some ws ∧
            ws.length = 24)) :=
  ⟨by decide, by decide, by decide,
    claim_C2 (List.replicate 256 false) (by decide) (by decide) (by decide)⟩

/-- C3: mnemonic derivation is a pure function of the persisted file's
contents — identical contents yield identical output (determinism of the
whole read–checksum–append–lookup pipeline). -/
theorem claim_C3 (c₁ c₂ : List Char) (wordList : List (List Char)) (h : c₁ = c₂) :
    generatePassphraseFromBinary (some c₁) wordList
      = generatePassphraseFromBinary (some c₂) wordList := by
  rw [h]

/-- Witness for C3 at a concrete file content. -/
theorem claim_C3_witness :
    ('0' :: '1' :: []) = ('0' :: '1' :: []) ∧
    generatePassphraseFromBinary (some ('0' :: '1' :: [])) concreteWordList
      = generatePassphraseFromBinary (some ('0' :: '1' :: [])) concreteWordList :=
  ⟨rfl, claim_C3 _ _ concreteWordList rfl⟩

/-- C4 counterexample: a single zero byte persists as eight `'0'`
characters with NO trailing newline, although its (only) line is partial —
the loop writes the final newline only when at least one complete 11-bit
group follows the last newline (`groupCount != 0`), and 8 bits complete no
group. -/
theorem claim_C4_counterexample :
    writeBinaryFile [0] = ['0', '0', '0', '0', '0', '0', '0', '0'] ∧
    (writeBinaryFile [0]).getLast? ≠ some '\n' := by
  constructor <;> decide

/-- C4 (amended: the final trailing newline is written iff the number of
complete 11-bit groups is not a multiple of 6, i.e. iff at least one
complete group follows the last newline; a partial line holding only
leftover bits after a multiple-of-6 group count gets no trailing newline):
the persisted encoding consists of the `'0'`/`'1'` characters in bit
order, each complete 11-bit chunk followed by a space, a newline after
every 6 complete groups, leftover bits last. -/
theorem claim_C4 :
    (∀ bits : List Bool, writeBinaryChars bits = canonicalEncoding bits) ∧
    (∀ entropy : List Nat,
      writeBinaryFile entropy = canonicalEncoding (bytesToBits entropy)) :=
  ⟨writeBinaryChars_eq_canonical, fun _ => writeBinaryChars_eq_canonical _⟩

/-- C5: loading reconstructs, in file order, exactly one bit per `'0'` or
`'1'` character of the persisted file (`filterMap bitOfChar`), ignoring
every other character; and when the file does not exist, derivation fails
with the not-found fatal error whose message instructs the caller to
generate the entropy first ("Please generate it first with -b"). -/
theorem claim_C5 :
    (∀ content : List Char, readFileBits content = content.filterMap bitOfChar) ∧
    (∀ wordList : List (List Char),
      generatePassphraseFromBinary none wordList
        = Except.error (DeriveErr.notFound notFoundMessage)) :=
  ⟨readFileBits_eq_filterMap, fun _ => rfl⟩

/-- C6 (code bug evidence): a persisted file whose content holds no `'0'`
or `'1'` character (here `"corrupt\n"`) is NOT detected by the load step —
the pipeline silently proceeds, hashes zero bytes of entropy, takes a
0-bit checksum and returns the EMPTY passphrase instead of reporting an
error. -/
theorem claim_C6 :
    readFileBits ('c' :: 'o' :: 'r' :: 'r' :: 'u' :: 'p' :: 't' :: '\n' :: []) = [] ∧
    generatePassphraseFromBinary
        (some ('c' :: 'o' :: 'r' :: 'r' :: 'u' :: 'p' :: 't' :: '\n' :: []))
        concreteWordList
      = Except.ok [] := by
  have h1 : readFileBits ('c' :: 'o' :: 'r' :: 'r' :: 'u' :: 'p' :: 't' :: '\n' :: [])
      = [] := by
    rw [readFileBits_eq_filterMap]
    decide
  refine ⟨h1, ?_⟩
  have h2 : checksumBits ([] : List Bool) = some [] := by
    have := checksumBits_eq [] (by norm_num)
    simpa using this
  simp only [generatePassphraseFromBinary, h1, h2]
  have h3 : generateMnemonic ([] ++ []) concreteWordList = some [] := by
    simp [generateMnemonic, mnemonicWords, mnemonicIndices, lookupWords]
    rfl
  rw [h3]

/-- C7: for every inspect token that is a binary literal: raw length over
11 is rejected (the loop prints the "binary must be <= 11 bits" error —
the rejection the spec calls reporting out-of-range), while length 1–10 is
zero-padded on the left to 11 characters and always accepted, reporting
the index of the padded value and the corresponding word. -/
theorem claim_C7 (raw : List Char) (wl : List (List Char))
    (hb : isBinary raw = true) (hwl : wl.length = 2048) :
    (11 < raw.length → showWordInfo raw wl = some InspectResult.binTooLong) ∧
    (raw.length ≤ 10 →
      ∃ w, wl.get? (binaryToInt (padTo11 raw)) = some w ∧
        showWordInfo raw wl
          = some (InspectResult.binInfo (padTo11 raw) (binaryToInt (padTo11 raw)) w)) := by
  constructor
  · intro hlong
    exact showWordInfo_bin_long raw wl hb hlong
  · intro hshort
    have hplen : (padTo11 raw).length = 11 := padTo11_length raw (by omega)
    have hidx : binaryToInt (padTo11 raw) < wl.length := by
      rw [hwl]
      have := binaryToInt_lt (padTo11 raw)
      rw [hplen] at this
      simpa using this
    obtain ⟨w, hw⟩ : ∃ w, wl.get? (binaryToInt (padTo11 raw)) = some w := by
      rw [List.get?_eq_get hidx]
      exact ⟨_, rfl⟩
    exact ⟨w, hw, showWordInfo_bin_short raw wl w hb hshort hw⟩

/-- Witness for C7 at the token "101" against the concrete word list. -/
theorem claim_C7_witness :
    isBinary ('1' :: '0' :: '1' :: []) = true ∧ concreteWordList.length = 2048 ∧
    ((11 < ('1' :: '0' :: '1' :: [] : List Char).length →
        showWordInfo ('1' :: '0' :: '1' :: []) concreteWordList
          = some InspectResult.binTooLong) ∧
      (('1' :: '0' :: '1' :: [] : List Char).length ≤ 10 →
        ∃ w, concreteWordList.get? (binaryToInt (padTo11 ('1' :: '0' :: '1' :: [])))
            = some w ∧
          showWordInfo ('1' :: '0' :: '1' :: []) concreteWordList
            = some (InspectResult.binInfo (padTo11 ('1' :: '0' :: '1' :: []))
                (binaryToInt (padTo11 ('1' :: '0' :: '1' :: []))) w))) :=
  ⟨by decide, concreteWordList_length,
    claim_C7 ('1' :: '0' :: '1' :: []) concreteWordList (by decide) concreteWordList_length⟩

/-- C8: round-trip inspection over a 2048-entry, duplicate-free word list
of normalized (lowercase, trimmed) non-binary words: inspecting word `i`
reports index `i` and its 11-bit zero-padded binary, and inspecting the
11-bit binary of `i` reports index `i` and word `i`. -/
theorem claim_C8 (wl : List (List Char)) (i : Nat) (w : List Char)
    (hlen : wl.length = 2048) (hnodup : wl.Nodup)
    (hentries : ∀ v ∈ wl, goTrimSpace (goToLower v) = v ∧ isBinary v = false)
    (hw : wl.get? i = some w) :
    showWordInfo w wl = some (InspectResult.wordInfo w i (toBinary11 i)) ∧
    showWordInfo (toBinary11 i) wl
      = some (InspectResult.binInfo (toBinary11 i) i w) := by
  have hi : i < 2048 := by
    obtain ⟨hlt, -⟩ := List.get?_eq_some.mp hw
    omega
  obtain ⟨hnorm, hnb⟩ := hentries w (List.get?_mem hw)
  constructor
  · exact showWordInfo_word w wl i hnorm hnb hnodup hw
  · have hbin : isBinary (toBinary11 i) = true :=
      (isBinary_iff _).mpr ⟨toBinary11_chars i, toBinary11_ne_nil i⟩
    have hlen11 : (toBinary11 i).length = 11 := toBinary11_length i hi
    have hround : binaryToInt (toBinary11 i) = i := binaryToInt_toBinary11 i
    have hw' : wl.get? (binaryToInt (toBinary11 i)) = some w := by
      rw [hround]; exact hw
    have h := showWordInfo_bin_eleven (toBinary11 i) wl w hbin hlen11 hw'
    rw [hround] at h
    exact h

/-- Witness for C8 at index 5 of the concrete word list. -/
theorem claim_C8_witness :
    concreteWordList.length = 2048 ∧ concreteWordList.Nodup ∧
    (∀ v ∈ concreteWordList, goTrimSpace (goToLower v) = v ∧ isBinary v = false) ∧
    concreteWordList.get? 5 = some ('w' :: toBinary11 5) ∧
    (showWordInfo ('w' :: toBinary11 5) concreteWordList
        = some (InspectResult.wordInfo ('w' :: toBinary11 5) 5 (toBinary11 5)) ∧
      showWordInfo (toBinary11 5) concreteWordList
        = some (InspectResult.binInfo (toBinary11 5) 5 ('w' :: toBinary11 5))) :=
  ⟨concreteWordList_length, concreteWordList_nodup, concreteWordList_entry_norm,
    concreteWordList_get 5 (by norm_num),
    claim_C8 concreteWordList 5 ('w' :: toBinary11 5) concreteWordList_length
      concreteWordList_nodup concreteWordList_entry_norm
      (concreteWordList_get 5 (by norm_num))⟩

/-- C9: for every bit sequence of length a multiple of 11, each 11-bit
group converts to an integer in `[0, 2047]`, so every lookup that
`generateMnemonic` performs against a 2048-entry word list is in bounds
(no index panic: `mnemonicWords` succeeds, one word per group). -/
theorem claim_C9 (bits : List Bool) (hdvd : 11 ∣ bits.length) :
    (∀ i < bits.length / 11, bitsToInt ((bits.drop (11 * i)).take 11) ≤ 2047) ∧
    (∀ wl : List (List Char), wl.length = 2048 →
      ∃ ws, mnemonicWords bits wl = some ws ∧ ws.length = bits.length / 11) := by
  constructor
  · intro i hi
    have hmem : bitsToInt ((bits.drop (11 * i)).take 11) ∈ mnemonicIndices bits := by
      unfold mnemonicIndices
      exact List.mem_map.mpr ⟨i, List.mem_range.mpr hi, rfl⟩
    have := mnemonicIndices_lt bits _ hmem
    omega
  · intro wl hwl
    exact mnemonicWords_total bits wl hwl

/-- Witness for C9 at 22 one-bits. -/
theorem claim_C9_witness :
    11 ∣ (List.replicate 22 true).length ∧
    ((∀ i < (List.replicate 22 true).length / 11,
        bitsToInt (((List.replicate 22 true).drop (11 * i)).take 11) ≤ 2047) ∧
      (∀ wl : List (List Char), wl.length = 2048 →
        ∃ ws, mnemonicWords (List.replicate 22 true) wl = some ws ∧
          ws.length = (List.replicate 22 true).length / 11)) :=
  ⟨by decide, claim_C9 (List.replicate 22 true) (by decide)⟩

/-- C10 counterexample: a persisted file of 8224 `'0'` characters loads as
8224 bits, `csLen = 8224/32 = 257` exceeds the 256 hash bits, and the Go
slice panics — the pipeline does NOT run to completion for every loaded
bit-sequence length. -/
theorem claim_C10_counterexample :
    generatePassphraseFromBinary (some (List.replicate 8224 '0')) concreteWordList
      = Except.error DeriveErr.slicePanic := by
  have h1 : readFileBits (List.replicate 8224 '0') = List.replicate 8224 false :=
    readFileBits_replicate_zero 8224
  have h2 : checksumBits (List.replicate 8224 false) = none := by
    apply checksumBits_none
    rw [List.length_replicate]
    norm_num
  simp only [generatePassphraseFromBinary, h1, h2]

/-- C10 (amended: restricted to loaded bit counts `n` with `n/32 ≤ 256`,
i.e. below 8224 bits; beyond that the checksum slice panics): for every
file content and 2048-entry word list the pipeline completes, the checksum
has `n/32` bits, the mnemonic has exactly `(n + n/32) / 11` words, and
bits beyond the last complete 11-bit group are silently discarded. -/
theorem claim_C10 (content : List Char) (wl : List (List Char))
    (hwl : wl.length = 2048)
    (hsafe : (readFileBits content).length / 32 ≤ 256) :
    ∃ cs ws,
      checksumBits (readFileBits content) = some cs ∧
      cs.length = (readFileBits content).length / 32 ∧
      mnemonicWords (readFileBits content ++ cs) wl = some ws ∧
      ws.length
        = ((readFileBits content).length + (readFileBits content).length / 32) / 11 ∧
      generatePassphraseFromBinary (some content) wl
        = Except.ok (List.intercalate [' '] ws) ∧
      mnemonicIndices (readFileBits content ++ cs)
        = mnemonicIndices ((readFileBits content ++ cs).take
            (11 * ((readFileBits content ++ cs).length / 11))) := by
  obtain ⟨cs, hcs, hcslen⟩ := checksumBits_length (readFileBits content) hsafe
  obtain ⟨ws, hws, hwslen⟩ := mnemonicWords_total (readFileBits content ++ cs) wl hwl
  refine ⟨cs, ws, hcs, hcslen, hws, ?_, ?_, mnemonicIndices_take _⟩
  · rw [hwslen, List.length_append, hcslen]
  · simp only [generatePassphraseFromBinary, hcs]
    have hgen : generateMnemonic (readFileBits content ++ cs) wl
        = some (List.intercalate [' '] ws) := by
      unfold generateMnemonic
      rw [hws]
      rfl
    rw [hgen]

/-- Witness for C10 at the empty file content. -/
theorem claim_C10_witness :
    concreteWordList.length = 2048 ∧ (readFileBits []).length / 32 ≤ 256 ∧
    (∃ cs ws,
      checksumBits (readFileBits []) = some cs ∧
      cs.length = (readFileBits []).length / 32 ∧
      mnemonicWords (readFileBits [] ++ cs) concreteWordList = some ws ∧
      ws.length = ((readFileBits []).length + (readFileBits []).length / 32) / 11 ∧
      generatePassphraseFromBinary (some []) concreteWordList
        = Except.ok (List.intercalate [' '] ws) ∧
      mnemonicIndices (readFileBits [] ++ cs)
        = mnemonicIndices ((readFileBits [] ++ cs).take
            (11 * ((readFileBits [] ++ cs).length / 11)))) :=
  ⟨concreteWordList_length, by decide,
    claim_C10 [] concreteWordList concreteWordList_length (by decide)⟩
